import Mathlib

/-!
Shallow embedding of the scheduler and producer-queue subsystem of the
`rustorio` repository (files `src/bin/standard/scheduler.rs` and
`src/bin/standard/machine.rs`), together with theorems settling the claims
about it.

Conventions used throughout:
* Rust `panic!` / `unwrap` failures are modelled by returning `none` from an
  `Option`-valued operation; a `some` result is a normal return.
* Machine integers (`u32`, `u16`, `usize`) are modelled as `Nat`; none of the
  verified code paths rely on wrap-around behaviour.
* A `Sink<T>` and the `CallBackQueue` are defined outside the available source
  files; following the spec ("a sink can be written to at most once; a source
  exposes the value once available"), a sink is modelled as an opaque
  identifier and `Sink::give` as recording the pair (sink id, value) in a
  chronological delivery log.
-/

namespace Rustorio

/-! ## Part A: the central waiter table (`scheduler.rs`, `WaiterQueue`) -/

/-- State of a registered waiter, from `enum WaiterState` in `scheduler.rs`.
The boxed suspended computation (`waiter: Box<dyn UntypedWaiter>`) of the
`Waiting` arm is elided: the claims under verification exercise only
`set_output` / `get`, which never run it.  `BeingChecked` is the dummy state
used by `mem::replace` during polling. -/
inductive WaiterState (α : Type) where
  | waiting (dependent : List Nat) (dormant : Bool)
  | done (val : α)
  | beingChecked
deriving DecidableEq

/-- The waiter registry, from `struct WaiterQueue` in `scheduler.rs`.  The
`IndexMap<WakeHandleId, WaiterState>` is modelled as an insertion-ordered
association list; the `Box<dyn Any>` payloads are specialised to a single
value type `α`. -/
structure WaiterQueue (α : Type) where
  next_handle : Nat
  waiters : List (Nat × WaiterState α)
  needs_update : List Nat
deriving DecidableEq

/-- Lookup of a key in the association list (the `IndexMap` get). -/
def findEntry {α : Type} (ws : List (Nat × WaiterState α)) (h : Nat) : Option (WaiterState α) :=
  (ws.find? (fun kv => kv.1 = h)).map Prod.snd

/-- Removal of a key (`shift_remove`: the relative order of the remaining
entries is preserved). -/
def eraseEntry {α : Type} (ws : List (Nat × WaiterState α)) (h : Nat) :
    List (Nat × WaiterState α) :=
  ws.filter (fun kv => kv.1 ≠ h)

/-- In-place overwrite of the state stored at a key (`*w = ...`). -/
def setEntry {α : Type} (ws : List (Nat × WaiterState α)) (h : Nat) (st : WaiterState α) :
    List (Nat × WaiterState α) :=
  ws.map (fun kv => if kv.1 = h then (kv.1, st) else kv)

namespace WaiterQueue

/-- `WaiterQueue::next_handle_id`. -/
def next_handle_id {α : Type} (q : WaiterQueue α) : Nat × WaiterQueue α :=
  (q.next_handle, { q with next_handle := q.next_handle + 1 })

/-- `WaiterQueue::set_already_resolved_handle`: enqueues a fake waiter that is
already done. -/
def set_already_resolved_handle {α : Type} (q : WaiterQueue α) (x : α) :
    Nat × WaiterQueue α :=
  let r := q.next_handle_id
  (r.1, { r.2 with waiters := r.2.waiters ++ [(r.1, .done x)] })

/-- `WaiterQueue::set_output`: sets the output of a waiter.  The source does
`self.waiters.get_mut(&h.id).unwrap()`, so a missing entry is a panic
(`none`); an existing entry — `Waiting` or already `Done` — is overwritten
with `Done(x)`, draining the dependents of a `Waiting` entry into
`needs_update`. -/
def set_output {α : Type} (q : WaiterQueue α) (h : Nat) (x : α) :
    Option (WaiterQueue α) :=
  match findEntry q.waiters h with
  | none => none
  | some (.waiting dep _) =>
      some { q with
              waiters := setEntry q.waiters h (.done x),
              needs_update := q.needs_update ++ dep }
  | some (.done _) => some { q with waiters := setEntry q.waiters h (.done x) }
  | some .beingChecked => some { q with waiters := setEntry q.waiters h (.done x) }

/-- `WaiterQueue::get`: moves the value out of a `Done` waiter, removing its
entry from the map (`shift_remove`); a `Waiting` or vacant entry yields no
value.  The `BeingChecked` arm is `unreachable!`, i.e. a panic (`none`). -/
def get {α : Type} (q : WaiterQueue α) (h : Nat) :
    Option (Option α × WaiterQueue α) :=
  match findEntry q.waiters h with
  | none => some (none, q)
  | some (.waiting _ _) => some (none, q)
  | some (.done x) => some (some x, { q with waiters := eraseEntry q.waiters h })
  | some .beingChecked => none

end WaiterQueue

/-! ## Part B: the producer wait queue (`machine.rs`, `ProducerWithQueue`)

The producer itself is kept abstract: it is any state `σ` together with a
polling function `poll : σ → Option ο × σ` (Rust's
`fn poll(&mut self, tick) -> Option<Output>`; the tick is fixed for the
duration of an `update` call and is therefore absorbed into `σ`).  A queue
entry is `(sink id, priority)`; priorities are `Nat` (source: `Priority(u16)`
ordered by its numeric value). -/

/-- `struct ProducerWithQueue` from `machine.rs`, with the producer state
abstracted to `σ`. -/
structure PWQ (σ : Type) where
  producer : σ
  /-- Keep sorted by priority (descending). -/
  queue : List (Nat × Nat)
  /-- Number of producing entities we are in the process of building. -/
  scaling_up : Nat
deriving DecidableEq

/-- Stable insertion of an element into a list sorted by descending priority:
the element goes after every entry of priority ≥ its own and before the first
entry of strictly smaller priority. -/
def insertDesc (x : Nat × Nat) : List (Nat × Nat) → List (Nat × Nat)
  | [] => [x]
  | y :: ys => if y.2 < x.2 then x :: y :: ys else y :: insertDesc x ys

/-- The stable sort by descending priority performed by
`queue.make_contiguous().sort_by_key(|(_, p)| Reverse(*p))`: Rust's
`sort_by_key` is a stable sort, and a stable sort by one key is unique, so it
is implemented here as the stable insertion sort (arrival order, with
`insertDesc` for each element). -/
def sortDesc (l : List (Nat × Nat)) : List (Nat × Nat) :=
  l.foldl (fun acc x => insertDesc x acc) []

/-- `ProducerWithQueue::enqueue`: if the queue is empty and the producer
already has output, satisfy the sink immediately; otherwise push the request
at the back and re-sort (stably) by descending priority.  Returns the new
state and the deliveries made (`Sink::give` calls), in order. -/
def enqueue {σ ο : Type} (poll : σ → Option ο × σ) (pwq : PWQ σ) (sink p : Nat) :
    PWQ σ × List (Nat × ο) :=
  if pwq.queue.isEmpty then
    match poll pwq.producer with
    | (some o, s1) => ({ pwq with producer := s1 }, [(sink, o)])
    | (none, s1) =>
        ({ pwq with producer := s1, queue := sortDesc (pwq.queue ++ [(sink, p)]) }, [])
  else
    ({ pwq with queue := sortDesc (pwq.queue ++ [(sink, p)]) }, [])

/-- Enqueue a whole list of requests in order, accumulating deliveries. -/
def enqueueAll {σ ο : Type} (poll : σ → Option ο × σ) :
    List (Nat × Nat) → PWQ σ → PWQ σ × List (Nat × ο)
  | [], pwq => (pwq, [])
  | e :: rest, pwq =>
    let r := enqueue poll pwq e.1 e.2
    let r2 := enqueueAll poll rest r.1
    (r2.1, r.2 ++ r2.2)

/-- The drain loop of `ProducerWithQueue::update`:
`while !queue.is_empty() && let Some(output) = producer.poll(tick)`
pop the front entry and give it the output.  Returns the final producer
state, the remaining queue and the chronological list of deliveries. -/
def update_go {σ ο : Type} (poll : σ → Option ο × σ) :
    σ → List (Nat × Nat) → σ × List (Nat × Nat) × List (Nat × ο)
  | s, [] => (s, [], [])
  | s, e :: rest =>
    match poll s with
    | (none, s1) => (s1, e :: rest, [])
    | (some o, s1) =>
      let r := update_go poll s1 rest
      (r.1, r.2.1, (e.1, o) :: r.2.2)

/-- `ProducerWithQueue::update`. -/
def update {σ ο : Type} (poll : σ → Option ο × σ) (pwq : PWQ σ) :
    PWQ σ × List (Nat × ο) :=
  let r := update_go poll pwq.producer pwq.queue
  ({ producer := r.1, queue := r.2.1, scaling_up := pwq.scaling_up }, r.2.2)

/-- `ProducerWithQueue::scale_up_if_needed`: when
`queue.len() > (available_parallelism + scaling_up * 12) * 4`, schedule
`trigger_scale_up` at priority one above the front (highest-priority) queued
request.  The returned closure is modelled by the priority it would pass to
`trigger_scale_up`. -/
def scale_up_if_needed (available_parallelism : Nat) (queue : List (Nat × Nat))
    (scaling_up : Nat) : Option Nat :=
  if queue.length > (available_parallelism + scaling_up * 12) * 4 then
    queue.head?.map (fun e => e.2 + 1)
  else
    none

/-- The scale-up bookkeeping state touched by `Producer::trigger_scale_up`:
the `scaling_up` in-flight counter of the `ProducerWithQueue`, together with
the number of completion callbacks registered via `state.map(h, ...)` that
will decrement the counter when the construction handle `h` resolves. -/
structure ScaleUpState where
  scaling_up : Nat
  pending_decrements : Nat
deriving DecidableEq

/-- `Producer::trigger_scale_up` (machine.rs): increments `scaling_up` by one,
starts `producer.scale_up(p)` obtaining a handle, and registers via
`state.map` exactly one callback that decrements `scaling_up` when that
handle resolves. -/
def trigger_scale_up (s : ScaleUpState) : ScaleUpState :=
  { scaling_up := s.scaling_up + 1, pending_decrements := s.pending_decrements + 1 }

/-- Resolution of one outstanding construction handle: the callback registered
by `trigger_scale_up` runs and decrements `scaling_up`. -/
def resolve_scale_up (s : ScaleUpState) : ScaleUpState :=
  { scaling_up := s.scaling_up - 1, pending_decrements := s.pending_decrements - 1 }

/-- One evaluation of the scale-up decision: run `scale_up_if_needed` and, if
it returns a trigger, execute it (`f(state)` in `check_waiters` callers). -/
def evaluate_scale_up (available_parallelism : Nat) (queue : List (Nat × Nat))
    (s : ScaleUpState) : ScaleUpState :=
  match scale_up_if_needed available_parallelism queue s.scaling_up with
  | some _ => trigger_scale_up s
  | none => s

/-! ## Part C: build-once resources (`machine.rs`, `OnceMaker`) -/

/-- `struct OnceMaker<O>` from `machine.rs`. -/
structure OnceMaker (ο : Type) where
  is_started : Bool
  output : Option ο
deriving DecidableEq

namespace OnceMaker

/-- `OnceMaker::ensure_made` (identical guard in `OnceMaker::scale_up`): if the
build has not been started, mark it started and launch the single underlying
build (whose completion will store the output); otherwise do nothing
(`state.nowait(())`).  The returned `Bool` records whether a build was
launched by this call. -/
def ensure_made {ο : Type} (m : OnceMaker ο) : OnceMaker ο × Bool :=
  if m.is_started then (m, false) else ({ m with is_started := true }, true)

/-- Completion of the single underlying build: the callback registered on the
`make` handle stores the produced value (`producer.output = Some(o)`). -/
def complete {ο : Type} (m : OnceMaker ο) (o : ο) : OnceMaker ο :=
  { m with output := some o }

/-- `OnceMaker::poll`: `self.output.clone()` — returns a clone of the cached
output without consuming it. -/
def poll {ο : Type} (m : OnceMaker ο) : Option ο × OnceMaker ο :=
  (m.output, m)

/-- A stampede of `n` requesters, each running the `ensure_made` guard in
turn, counting how many underlying builds were launched. -/
def stampede {ο : Type} : Nat → OnceMaker ο → OnceMaker ο × Nat
  | 0, m => (m, 0)
  | n + 1, m =>
    let r := ensure_made m
    let rest := stampede n r.1
    (rest.1, (if r.2 then 1 else 0) + rest.2)

end OnceMaker

/-! ## Part D: machine stores (`machine.rs`, `MultiMachine`)

A concrete machine is its input and output resource containers.  The recipes
reaching `MultiMachine` have one or two input resources and one output
resource (`MultiBundle` impls in `recipes.rs`); we embed the two-input case
(`in1`, `in2`), which subsumes the one-input case by taking the second bundle
size to divide everything evenly.  `n1`/`n2` are the input bundle sizes,
`no` the output bundle size.  `Resource::bundle::<N>()` is the library's
atomic withdraw-or-fail of exactly `N` units (spec §6), and `+=` on a
resource adds units. -/

/-- A machine's resource containers: raw unit amounts of the two input
resources and of the output resource. -/
structure MachineRes where
  in1 : Nat
  in2 : Nat
  out : Nat
deriving DecidableEq

/-- `Machine::input_load`: `bundle_count` of the inputs, i.e. the number of
whole input bundle tuples present (`min(res.0.amount() / N1,
res.1.amount() / N2)`). -/
def input_load (n1 n2 : Nat) (m : MachineRes) : Nat :=
  min (m.in1 / n1) (m.in2 / n2)

/-- `Machine::add_inputs`: add one whole input bundle tuple. -/
def add_inputs (n1 n2 : Nat) (m : MachineRes) : MachineRes :=
  { m with in1 := m.in1 + n1, in2 := m.in2 + n2 }

/-- `Machine::pop_inputs` (`MultiBundle::bundle` for a pair): withdraw one
whole input bundle tuple if both containers hold enough. -/
def pop_inputs (n1 n2 : Nat) (m : MachineRes) : Option MachineRes :=
  if n1 ≤ m.in1 ∧ n2 ≤ m.in2 then
    some { m with in1 := m.in1 - n1, in2 := m.in2 - n2 }
  else
    none

/-- The rebalancing loop of `MultiMachine::add` for one existing machine `a`
against the new machine `b`:
`while a.input_load() > average_load && let Some(input) = a.pop_inputs()
 { b.add_inputs(input) }`. -/
def rebalance_one (n1 n2 avg : Nat) (a b : MachineRes) : MachineRes × MachineRes :=
  if h : avg < input_load n1 n2 a then
    match hp : pop_inputs n1 n2 a with
    | some a1 => rebalance_one n1 n2 avg a1 (add_inputs n1 n2 b)
    | none => (a, b)
  else
    (a, b)
termination_by input_load n1 n2 a
decreasing_by
  have hcond : n1 ≤ a.in1 ∧ n2 ≤ a.in2 := by
    by_contra hc
    simp only [pop_inputs, if_neg hc] at hp
    exact Option.noConfusion hp
  have ha1 : a1 = { a with in1 := a.in1 - n1, in2 := a.in2 - n2 } := by
    simp only [pop_inputs, if_pos hcond] at hp
    exact (Option.some.inj hp).symm
  have hload : 0 < input_load n1 n2 a := Nat.lt_of_le_of_lt (Nat.zero_le avg) h
  have hd1 : 0 < a.in1 / n1 := Nat.lt_of_lt_of_le hload (Nat.min_le_left _ _)
  have hd2 : 0 < a.in2 / n2 := Nat.lt_of_lt_of_le hload (Nat.min_le_right _ _)
  have hn1 : 0 < n1 := by
    rcases Nat.eq_zero_or_pos n1 with h0 | h0
    · simp [h0, Nat.div_zero] at hd1
    · exact h0
  have hn2 : 0 < n2 := by
    rcases Nat.eq_zero_or_pos n2 with h0 | h0
    · simp [h0, Nat.div_zero] at hd2
    · exact h0
  have e1 : a.in1 / n1 = (a.in1 - n1) / n1 + 1 := by
    conv_lhs => rw [← Nat.sub_add_cancel hcond.1]
    rw [Nat.add_div_right _ hn1]
  have e2 : a.in2 / n2 = (a.in2 - n2) / n2 + 1 := by
    conv_lhs => rw [← Nat.sub_add_cancel hcond.2]
    rw [Nat.add_div_right _ hn2]
  subst ha1
  simp only [input_load] at *
  omega

/-- The loop of `MultiMachine::add` over all existing machines, threading the
new machine through (`for n in items.iter_mut() { ... }`). -/
def rebalance_fold (n1 n2 avg : Nat) :
    List MachineRes → MachineRes → List MachineRes × MachineRes
  | [], m => ([], m)
  | x :: xs, m =>
    let r := rebalance_one n1 n2 avg x m
    let rest := rebalance_fold n1 n2 avg xs r.2
    (r.1 :: rest.1, rest.2)

/-- `enum MultiMachine` from `machine.rs`.  While there is no constructed
machine, inputs and handcrafted outputs are buffered in `Vec`s of bundles;
since every buffered bundle has the fixed recipe size the buffers are
modelled by their lengths. -/
inductive MultiMachine where
  | noMachine (inputs : Nat) (outputs : Nat)
  | present (machines : List MachineRes)
  | removed
deriving DecidableEq

/-- `MultiMachine::add`: on `NoMachine`, feed all buffered inputs and outputs
to the new machine; on `Present`, rebalance queued input load above the new
average onto the new machine before appending it; on `Removed`, panic. -/
def mm_add (n1 n2 no : Nat) (mm : MultiMachine) (m : MachineRes) :
    Option MultiMachine :=
  match mm with
  | .noMachine ins outs =>
      some (.present [{ in1 := m.in1 + ins * n1, in2 := m.in2 + ins * n2,
                        out := m.out + outs * no }])
  | .present items =>
      let total_load := (items.map (input_load n1 n2)).sum
      let average_load := total_load / (items.length + 1)
      let r := rebalance_fold n1 n2 average_load items m
      some (.present (r.1 ++ [r.2]))
  | .removed => none

/-- Helper for `MultiMachine::add_inputs` on `Present`: `min_by_key` returns
the first machine of minimal load; add the bundle to it. -/
def addAtFirstMin (n1 n2 minL : Nat) : List MachineRes → List MachineRes
  | [] => []
  | x :: xs =>
    if input_load n1 n2 x = minL then add_inputs n1 n2 x :: xs
    else x :: addAtFirstMin n1 n2 minL xs

/-- `MultiMachine::add_inputs`: buffer on `NoMachine`; route to the least
loaded machine on `Present` (panicking, via `unwrap`, when the machine list
is empty); panic on `Removed`. -/
def mm_add_inputs (n1 n2 : Nat) (mm : MultiMachine) : Option MultiMachine :=
  match mm with
  | .noMachine ins outs => some (.noMachine (ins + 1) outs)
  | .present items =>
      if items.isEmpty then none
      else
        let minL := ((items.map (input_load n1 n2)).min?).getD 0
        some (.present (addAtFirstMin n1 n2 minL items))
  | .removed => none

/-- Helper for `MultiMachine::poll` on `Present`: return the first machine's
popped output bundle, if any machine has one. -/
def pollMachines (no : Nat) : List MachineRes → Option Unit × List MachineRes
  | [] => (none, [])
  | x :: xs =>
    if no ≤ x.out then (some (), { x with out := x.out - no } :: xs)
    else
      let r := pollMachines no xs
      (r.1, x :: r.2)

/-- `MultiMachine::poll`: pop a buffered handcrafted output on `NoMachine`
(`outputs.pop()`); pop the first available machine output on `Present`;
return `None` on `Removed`.  The output bundle has the fixed recipe size and
is modelled as `Unit`. -/
def mm_poll (no : Nat) (mm : MultiMachine) : Option (Option Unit × MultiMachine) :=
  match mm with
  | .noMachine ins outs =>
      if outs = 0 then some (none, .noMachine ins outs)
      else some (some (), .noMachine ins (outs - 1))
  | .present items =>
      let r := pollMachines no items
      some (r.1, .present r.2)
  | .removed => some (none, .removed)

/-- A concrete producer used to instantiate the abstract `poll` in witnesses:
a stock of outputs handed out one at a time (the behaviour of a
`MultiMachine` whose machines each hold finished output bundles). -/
def listPoll : List Nat → Option Nat × List Nat
  | [] => (none, [])
  | o :: rest => (some o, rest)

/-- The delivery order relation of claim C3: earlier-delivered entries have
strictly higher priority, or equal priority and an earlier arrival (smaller
sink id). -/
def prioOrder (a b : Nat × Nat) : Prop :=
  b.2 < a.2 ∨ (a.2 = b.2 ∧ a.1 < b.1)

/-- Descending order on priorities: the invariant of the request queue. -/
def ge2 (a b : Nat × Nat) : Prop := b.2 ≤ a.2

/-! ## Theorems -/

/-- After erasing a handle, looking it up finds nothing. -/
theorem findEntry_erase {α : Type} (ws : List (Nat × WaiterState α)) (h : Nat) :
    findEntry (eraseEntry ws h) h = none := by
  simp only [findEntry, eraseEntry, Option.map_eq_none', List.find?_eq_none,
    List.mem_filter]
  intro x hx
  simpa using hx.2

/-- C1: reading a handle's value via `WaiterQueue::get` succeeds at most once:
the first `get` after the waiter is `Done` moves the value out and removes the
entry, and any second `get` of the same handle returns no value (never stale,
default or duplicated data). -/
theorem waiter_get_at_most_once {α : Type} (q q2 : WaiterQueue α) (h : Nat) (v : α)
    (hget : q.get h = some (some v, q2)) : q2.get h = some (none, q2) := by
  unfold WaiterQueue.get at hget
  cases hfe : findEntry q.waiters h with
  | none => rw [hfe] at hget; simp at hget
  | some st =>
    rw [hfe] at hget
    cases st with
    | waiting dep dor => simp at hget
    | beingChecked => simp at hget
    | done x =>
      simp only [Option.some.injEq, Prod.mk.injEq] at hget
      obtain ⟨hxv, hq2⟩ := hget
      subst hq2
      unfold WaiterQueue.get
      rw [findEntry_erase]

/-- Concrete run of C1: a queue holding one `Done` waiter; the first read
yields the value, the second read yields nothing. -/
theorem waiter_get_at_most_once_witness :
    WaiterQueue.get (WaiterQueue.mk 1 [(0, WaiterState.done (7 : Nat))] []) 0 =
      some (some 7, WaiterQueue.mk 1 [] []) ∧
    WaiterQueue.get (WaiterQueue.mk 1 ([] : List (Nat × WaiterState Nat)) []) 0 =
      some (none, WaiterQueue.mk 1 [] []) :=
  ⟨rfl, waiter_get_at_most_once (WaiterQueue.mk 1 [(0, WaiterState.done 7)] []) _ 0 7 rfl⟩

/-- C5 counterexample: a handle resolved through `set_already_resolved_handle`
is `Done`, yet a second `set_output` for it returns normally (no panic) and
silently replaces the stored value, as a subsequent `get` shows. -/
theorem set_output_double_resolve_cx :
    WaiterQueue.set_already_resolved_handle (WaiterQueue.mk 0 [] []) (1 : Nat) =
      (0, WaiterQueue.mk 1 [(0, WaiterState.done 1)] []) ∧
    WaiterQueue.set_output (WaiterQueue.mk 1 [(0, WaiterState.done (1 : Nat))] []) 0 2 =
      some (WaiterQueue.mk 1 [(0, WaiterState.done 2)] []) ∧
    WaiterQueue.get (WaiterQueue.mk 1 [(0, WaiterState.done (2 : Nat))] []) 0 =
      some (some 2, WaiterQueue.mk 1 [] []) :=
  ⟨rfl, rfl, rfl⟩

/-- C5 (amended): while a handle's entry still exists — in particular when its
waiter has already completed — a further `set_output` does not panic: it
returns normally and silently replaces the stored value with the new one.
(`set_output` panics only when the entry is absent, i.e. after `get` consumed
the value.) -/
theorem set_output_overwrites_done {α : Type} (q : WaiterQueue α) (h : Nat) (v x : α)
    (hdone : findEntry q.waiters h = some (.done v)) :
    q.set_output h x = some { q with waiters := setEntry q.waiters h (.done x) } := by
  unfold WaiterQueue.set_output
  rw [hdone]

/-- Concrete run of the amended C5: overwriting the `Done` value 1 with 2. -/
theorem set_output_overwrites_done_witness :
    findEntry [(0, WaiterState.done (1 : Nat))] 0 = some (.done 1) ∧
    WaiterQueue.set_output (WaiterQueue.mk 1 [(0, WaiterState.done (1 : Nat))] []) 0 2 =
      some (WaiterQueue.mk 1 [(0, WaiterState.done 2)] []) :=
  ⟨rfl, set_output_overwrites_done (WaiterQueue.mk 1 [(0, WaiterState.done 1)] []) 0 1 2 rfl⟩

/-- The drain loop stops only when the queue is exhausted or the producer
polls `none`; for producers whose `poll` leaves the state unchanged when it
yields nothing, that last failing poll still describes the final state. -/
theorem update_go_exhausts {σ ο : Type} (poll : σ → Option ο × σ)
    (hstable : ∀ s s', poll s = (none, s') → s' = s) :
    ∀ (q : List (Nat × Nat)) (s : σ),
      (update_go poll s q).2.1 = [] ∨ (poll (update_go poll s q).1).1 = none := by
  intro q
  induction q with
  | nil => intro s; left; rfl
  | cons e rest ih =>
    intro s
    cases hp : poll s with
    | mk o s1 =>
      cases o with
      | none =>
        right
        have hs : s1 = s := hstable s s1 hp
        simp only [update_go, hp]
        rw [hs, hp]
      | some o =>
        simpa only [update_go, hp] using ih s1

/-- C2: after `ProducerWithQueue::update(tick)` returns, either the wait queue
is empty or the producer's poll at that tick returns `None`; and if the poll
would have yielded `Some o`, the front queued sink is the first to receive an
output.  The hypothesis states that a failing poll does not change the
producer state, which holds for every producer in `machine.rs` (polling
mutates state only when an output is withdrawn). -/
theorem update_no_lost_wakeup {σ ο : Type} (poll : σ → Option ο × σ)
    (hstable : ∀ s s', poll s = (none, s') → s' = s) (pwq : PWQ σ) :
    ((update poll pwq).1.queue = [] ∨ (poll (update poll pwq).1.producer).1 = none) ∧
    (∀ sink p rest o s1, pwq.queue = (sink, p) :: rest →
      poll pwq.producer = (some o, s1) →
      ((update poll pwq).2).head? = some (sink, o)) := by
  constructor
  · exact update_go_exhausts poll hstable pwq.queue pwq.producer
  · intro sink p rest o s1 hq hpoll
    simp only [update, hq, update_go, hpoll, List.head?]

/-- Concrete run of C2: a stock-list producer holding one output and a queue
of one request; after `update` the queue is empty, and the front sink got the
output. -/
theorem update_no_lost_wakeup_witness :
    (∀ s s' : List Nat, listPoll s = (none, s') → s' = s) ∧
    (((update listPoll (PWQ.mk [5] [(0, 1)] 0)).1.queue = [] ∨
        (listPoll ((update listPoll (PWQ.mk [5] [(0, 1)] 0)).1.producer)).1 = none) ∧
      ∀ sink p rest o s1, (PWQ.mk [5] [(0, 1)] 0).queue = (sink, p) :: rest →
        listPoll (PWQ.mk [5] [(0, 1)] 0).producer = (some o, s1) →
        ((update listPoll (PWQ.mk [5] [(0, 1)] 0)).2).head? = some (sink, o)) := by
  have hst : ∀ s s' : List Nat, listPoll s = (none, s') → s' = s := by
    intro s s' hss
    cases s with
    | nil =>
      simp only [listPoll, Prod.mk.injEq] at hss
      exact hss.2.symm
    | cons a r => simp [listPoll] at hss
  exact ⟨hst, update_no_lost_wakeup listPoll hst _⟩

/-- Membership in a stable insertion. -/
theorem mem_insertDesc {x y : Nat × Nat} {l : List (Nat × Nat)} :
    y ∈ insertDesc x l ↔ y = x ∨ y ∈ l := by
  induction l with
  | nil => simp [insertDesc]
  | cons z zs ih =>
    simp only [insertDesc]
    split
    · simp [List.mem_cons]
    · simp only [List.mem_cons, ih]
      tauto

/-- Stable insertion preserves the descending-priority queue invariant. -/
theorem insertDesc_sorted {x : Nat × Nat} {l : List (Nat × Nat)}
    (hl : l.Pairwise ge2) : (insertDesc x l).Pairwise ge2 := by
  induction l with
  | nil => simp [insertDesc]
  | cons y ys ih =>
    obtain ⟨hy, hys⟩ := List.pairwise_cons.mp hl
    simp only [insertDesc]
    split
    · rename_i hlt
      refine List.pairwise_cons.mpr ⟨?_, hl⟩
      intro z hz
      rcases List.mem_cons.mp hz with rfl | hz2
      · exact Nat.le_of_lt hlt
      · have := hy z hz2
        unfold ge2 at *
        omega
    · rename_i hge
      refine List.pairwise_cons.mpr ⟨?_, ih hys⟩
      intro z hz
      rcases mem_insertDesc.mp hz with rfl | hz2
      · exact Nat.le_of_not_lt hge
      · exact hy z hz2

/-- Inserting an element no larger than every queue entry appends it. -/
theorem insertDesc_append_of_le {x : Nat × Nat} {l : List (Nat × Nat)}
    (h : ∀ y ∈ l, x.2 ≤ y.2) : insertDesc x l = l ++ [x] := by
  induction l with
  | nil => rfl
  | cons y ys ih =>
    simp only [insertDesc]
    rw [if_neg (Nat.not_lt.mpr (h y (by simp))),
      ih (fun z hz => h z (by simp [hz]))]
    rfl

/-- One step of the re-sort: sorting with one more element pushed at the back
inserts that element into the sorted remainder. -/
theorem sortDesc_append (l : List (Nat × Nat)) (x : Nat × Nat) :
    sortDesc (l ++ [x]) = insertDesc x (sortDesc l) := by
  simp [sortDesc, List.foldl_append]

/-- The queue produced by the re-sort is sorted by descending priority. -/
theorem sortDesc_sorted (l : List (Nat × Nat)) : (sortDesc l).Pairwise ge2 := by
  induction l using List.reverseRecOn with
  | nil => simp [sortDesc]
  | append_singleton l x ih => rw [sortDesc_append]; exact insertDesc_sorted ih

/-- Sorting a list that is already sorted leaves it unchanged. -/
theorem sortDesc_of_sorted {l : List (Nat × Nat)} (hl : l.Pairwise ge2) :
    sortDesc l = l := by
  induction l using List.reverseRecOn with
  | nil => rfl
  | append_singleton l x ih =>
    obtain ⟨h1, _, hcross⟩ := List.pairwise_append.mp hl
    rw [sortDesc_append, ih h1]
    exact insertDesc_append_of_le (fun y hy => hcross y hy x (by simp))

/-- The re-sort is idempotent. -/
theorem sortDesc_idem (l : List (Nat × Nat)) : sortDesc (sortDesc l) = sortDesc l :=
  sortDesc_of_sorted (sortDesc_sorted l)

/-- The re-sort does not add or drop requests. -/
theorem mem_sortDesc {y : Nat × Nat} {l : List (Nat × Nat)} :
    y ∈ sortDesc l ↔ y ∈ l := by
  induction l using List.reverseRecOn with
  | nil => simp [sortDesc]
  | append_singleton l x ih =>
    rw [sortDesc_append]
    simp [mem_insertDesc, ih, or_comm]

/-- The re-sort preserves the number of queued requests. -/
theorem length_sortDesc (l : List (Nat × Nat)) :
    (sortDesc l).length = l.length := by
  induction l using List.reverseRecOn with
  | nil => rfl
  | append_singleton l x ih =>
    have hlen : ∀ (x1 : Nat × Nat) (l1 : List (Nat × Nat)),
        (insertDesc x1 l1).length = l1.length + 1 := by
      intro x1 l1
      induction l1 with
      | nil => rfl
      | cons z zs ih1 =>
        simp only [insertDesc]
        split <;> simp [ih1]
    rw [sortDesc_append, hlen, ih]
    simp

/-- Stable insertion of a later arrival (larger sink id) preserves the
delivery-order relation. -/
theorem insertDesc_pairwise {x : Nat × Nat} {l : List (Nat × Nat)}
    (hl : l.Pairwise prioOrder) (hid : ∀ y ∈ l, y.1 < x.1) :
    (insertDesc x l).Pairwise prioOrder := by
  induction l with
  | nil => simp [insertDesc]
  | cons y ys ih =>
    obtain ⟨hy, hys⟩ := List.pairwise_cons.mp hl
    simp only [insertDesc]
    split
    · rename_i hlt
      refine List.pairwise_cons.mpr ⟨?_, hl⟩
      intro z hz
      rcases List.mem_cons.mp hz with rfl | hz2
      · exact Or.inl hlt
      · have := hy z hz2
        unfold prioOrder at *
        omega
    · rename_i hge
      refine List.pairwise_cons.mpr
        ⟨?_, ih hys (fun z hz => hid z (by simp [hz]))⟩
      intro z hz
      rcases mem_insertDesc.mp hz with rfl | hz2
      · have := hid y (by simp)
        unfold prioOrder
        omega
      · exact hy z hz2

/-- Requests enqueued in arrival order (strictly increasing sink ids) end up
sorted by the delivery-order relation: strictly descending priority, FIFO
within a priority tier. -/
theorem sortDesc_pairwise {l : List (Nat × Nat)}
    (hids : l.Pairwise (fun a b => a.1 < b.1)) :
    (sortDesc l).Pairwise prioOrder := by
  induction l using List.reverseRecOn with
  | nil => simp [sortDesc]
  | append_singleton l x ih =>
    obtain ⟨h1, _, hcross⟩ := List.pairwise_append.mp hids
    rw [sortDesc_append]
    exact insertDesc_pairwise (ih h1)
      (fun y hy => hcross y (mem_sortDesc.mp hy) x (by simp))

/-- Running the enqueue loop over a request list keeps the queue equal to the
stable descending sort of everything enqueued so far, provided the producer
yields no output during the enqueue phase. -/
theorem enqueueAll_spec {σ ο : Type} (poll : σ → Option ο × σ) (s : σ)
    (hpoll : poll s = (none, s)) :
    ∀ (reqs pref : List (Nat × Nat)) (su : Nat),
      enqueueAll poll reqs (PWQ.mk s (sortDesc pref) su) =
        (PWQ.mk s (sortDesc (pref ++ reqs)) su, ([] : List (Nat × ο))) := by
  intro reqs
  induction reqs with
  | nil => intro pref su; simp [enqueueAll]
  | cons e rest ih =>
    intro pref su
    have he : enqueue poll (PWQ.mk s (sortDesc pref) su) e.1 e.2 =
        (PWQ.mk s (sortDesc (pref ++ [e])) su, []) := by
      by_cases hq : sortDesc pref = []
      · have hpref : pref = [] := by
          have := length_sortDesc pref
          rw [hq] at this
          exact List.length_eq_zero.mp this.symm
        subst hpref
        simp [enqueue, hq, hpoll]
      · have hne : (sortDesc pref).isEmpty = false := by
          cases hsp : sortDesc pref with
          | nil => exact absurd hsp hq
          | cons a l => rfl
        simp only [enqueue, hne, Bool.false_eq_true, if_false]
        rw [sortDesc_append, sortDesc_idem, ← sortDesc_append]
    simp only [enqueueAll, he]
    rw [ih (pref ++ [e]) su]
    simp

/-- The deliveries made by the drain loop go to a prefix of the queue, in
queue order. -/
theorem update_go_prefix {σ ο : Type} (poll : σ → Option ο × σ) :
    ∀ (q : List (Nat × Nat)) (s : σ),
      ∃ k, ((update_go poll s q).2.2).map Prod.fst = (q.map Prod.fst).take k := by
  intro q
  induction q with
  | nil => intro s; exact ⟨0, rfl⟩
  | cons e rest ih =>
    intro s
    cases hp : poll s with
    | mk o s1 =>
      cases o with
      | none => exact ⟨0, by simp [update_go, hp]⟩
      | some o =>
        obtain ⟨k, hk⟩ := ih s1
        exact ⟨k + 1, by simp [update_go, hp, hk]⟩

/-- C3: for every sequence of enqueues (sink ids in arrival order) against a
producer with no output during the enqueue phase, the queue becomes the
stable descending sort of the requests, so `update` — which always serves the
queue front — delivers outputs in strictly descending priority order with
FIFO tie-break, regardless of the order in which the requests were enqueued;
the sinks actually served form a prefix of that sorted order. -/
theorem priority_order_delivery {σ ο : Type} (poll : σ → Option ο × σ) (s : σ)
    (reqs : List (Nat × Nat)) (hpoll : poll s = (none, s))
    (hids : reqs.Pairwise (fun a b => a.1 < b.1)) :
    (enqueueAll poll reqs (PWQ.mk s [] 0)).1.queue = sortDesc reqs ∧
    (enqueueAll poll reqs (PWQ.mk s [] 0)).2 = ([] : List (Nat × ο)) ∧
    (sortDesc reqs).Pairwise prioOrder ∧
    ∀ s2 : σ, ∃ k,
      ((update_go poll s2 (sortDesc reqs)).2.2).map Prod.fst =
        ((sortDesc reqs).map Prod.fst).take k := by
  have hmain := enqueueAll_spec poll s hpoll reqs [] 0
  have hq : (PWQ.mk s ([] : List (Nat × Nat)) 0) = PWQ.mk s (sortDesc []) 0 := rfl
  rw [hq, hmain]
  refine ⟨rfl, rfl, sortDesc_pairwise hids, fun s2 => update_go_prefix poll _ s2⟩

/-- Concrete run of C3: priorities enqueued as `[3, 1, 2]` (sink ids 0, 1, 2
in arrival order) are queued as `[3, 2, 1]` and hence served in that order. -/
theorem priority_order_delivery_witness :
    listPoll [] = (none, []) ∧
    ([((0 : Nat), (3 : Nat)), (1, 1), (2, 2)]).Pairwise (fun a b => a.1 < b.1) ∧
    ((enqueueAll listPoll [(0, 3), (1, 1), (2, 2)] (PWQ.mk [] [] 0)).1.queue =
        sortDesc [(0, 3), (1, 1), (2, 2)] ∧
      (enqueueAll listPoll [(0, 3), (1, 1), (2, 2)] (PWQ.mk [] [] 0)).2 =
        ([] : List (Nat × Nat)) ∧
      (sortDesc [(0, 3), (1, 1), (2, 2)]).Pairwise prioOrder ∧
      ∀ s2 : List Nat, ∃ k,
        ((update_go listPoll s2 (sortDesc [(0, 3), (1, 1), (2, 2)])).2.2).map Prod.fst =
          ((sortDesc [(0, 3), (1, 1), (2, 2)]).map Prod.fst).take k) ∧
    sortDesc [(0, 3), (1, 1), (2, 2)] = [(0, 3), (2, 2), (1, 1)] :=
  ⟨rfl, by decide,
    priority_order_delivery listPoll [] [(0, 3), (1, 1), (2, 2)] rfl (by decide), rfl⟩

/-- C7: `scale_up_if_needed` triggers a capacity increase exactly when
`queue_length > (available_parallelism + scaling_up * 12) * 4`, i.e. with the
implementation's constants K = 12 and threshold_factor = 4: it returns a
trigger when the inequality holds and `none` otherwise. -/
theorem scale_up_threshold_exact (ap su : Nat) (queue : List (Nat × Nat)) :
    (scale_up_if_needed ap queue su).isSome = true ↔
      queue.length > (ap + su * 12) * 4 := by
  constructor
  · intro hs
    by_contra hn
    simp [scale_up_if_needed, hn] at hs
  · intro hgt
    have hne : queue ≠ [] := by
      intro he
      subst he
      simp only [List.length_nil] at hgt
      omega
    obtain ⟨e, rest, rfl⟩ := List.exists_cons_of_ne_nil hne
    unfold scale_up_if_needed
    rw [if_pos hgt]
    simp

/-- C10: whenever `scale_up_if_needed` decides to scale up, the trigger is
requested at priority exactly one greater than the priority of the front
queued request, which — the queue being kept sorted by descending priority —
is the highest queued priority; hence the construction outranks every queued
demand. -/
theorem scale_up_priority_outranks (ap su p : Nat) (queue : List (Nat × Nat))
    (hsorted : queue.Pairwise ge2)
    (hsome : scale_up_if_needed ap queue su = some p) :
    ∃ front rest, queue = front :: rest ∧ p = front.2 + 1 ∧
      ∀ e ∈ queue, e.2 < p := by
  unfold scale_up_if_needed at hsome
  split at hsome
  · cases queue with
    | nil => simp at hsome
    | cons front rest =>
      simp only [List.head?, Option.map_some'] at hsome
      obtain ⟨hfront, hrest⟩ := List.pairwise_cons.mp hsorted
      have hp : p = front.2 + 1 := (Option.some.inj hsome).symm
      subst hp
      refine ⟨front, rest, rfl, rfl, ?_⟩
      intro e he
      rcases List.mem_cons.mp he with rfl | he2
      · omega
      · have := hfront e he2
        unfold ge2 at this
        omega
  · exact Option.noConfusion hsome

/-- Concrete run of C10: one queued request of priority 5 with no capacity and
nothing in flight triggers construction at priority 6. -/
theorem scale_up_priority_outranks_witness :
    ([((7 : Nat), (5 : Nat))]).Pairwise ge2 ∧
    scale_up_if_needed 0 [(7, 5)] 0 = some 6 ∧
    (∃ front rest, [((7 : Nat), (5 : Nat))] = front :: rest ∧ 6 = front.2 + 1 ∧
      ∀ e ∈ [((7 : Nat), (5 : Nat))], e.2 < 6) :=
  ⟨List.pairwise_singleton _ _, rfl,
    scale_up_priority_outranks 0 0 6 [(7, 5)] (List.pairwise_singleton _ _) rfl⟩

/-- C8 counterexample: with no capacity and a backlog of 49 requests, the
scale-up decision evaluated twice in the same backlog condition — the counter
raised to 1 by the first trigger — triggers again, leaving two in-flight
constructions, not one (49 > (0 + 1·12)·4 = 48 still holds). -/
theorem scale_up_double_trigger_cx :
    (evaluate_scale_up 0 (List.replicate 49 ((0 : Nat), (0 : Nat)))
        (evaluate_scale_up 0 (List.replicate 49 ((0 : Nat), (0 : Nat)))
          ⟨0, 0⟩)).scaling_up = 2 ∧
    ¬(evaluate_scale_up 0 (List.replicate 49 ((0 : Nat), (0 : Nat)))
        (evaluate_scale_up 0 (List.replicate 49 ((0 : Nat), (0 : Nat)))
          ⟨0, 0⟩)).scaling_up = 1 := by
  constructor
  · rfl
  · decide

/-- C8 (amended): each `trigger_scale_up` increments the producer's
`scaling_up` counter by exactly 1 and registers exactly one decrement, fired
when the construction handle resolves; and re-evaluating the scale-up
decision under the same backlog with the counter raised by the first trigger
starts no second construction — so exactly one is in flight — provided the
queue does not also exceed the raised threshold
`(available_parallelism + 12) * 4` (a longer queue triggers again). -/
theorem scale_up_no_double_count (ap : Nat) (queue : List (Nat × Nat))
    (h1 : queue.length > ap * 4) (h2 : queue.length ≤ (ap + 12) * 4) :
    (∀ s : ScaleUpState, trigger_scale_up s =
        ⟨s.scaling_up + 1, s.pending_decrements + 1⟩) ∧
    (evaluate_scale_up ap queue ⟨0, 0⟩).scaling_up = 1 ∧
    (evaluate_scale_up ap queue ⟨0, 0⟩).pending_decrements = 1 ∧
    evaluate_scale_up ap queue (evaluate_scale_up ap queue ⟨0, 0⟩) =
      evaluate_scale_up ap queue ⟨0, 0⟩ := by
  have hne : queue ≠ [] := by
    intro he
    subst he
    simp only [List.length_nil] at h1
    omega
  obtain ⟨e, rest, rfl⟩ := List.exists_cons_of_ne_nil hne
  have hA : scale_up_if_needed ap (e :: rest) 0 = some (e.2 + 1) := by
    unfold scale_up_if_needed
    rw [if_pos (by omega)]
    rfl
  have hB : evaluate_scale_up ap (e :: rest) ⟨0, 0⟩ = ⟨1, 1⟩ := by
    unfold evaluate_scale_up
    rw [hA]
    rfl
  have hC : scale_up_if_needed ap (e :: rest) 1 = none := by
    unfold scale_up_if_needed
    rw [if_neg (by omega)]
  refine ⟨fun s => rfl, by rw [hB], by rw [hB], ?_⟩
  rw [hB]
  unfold evaluate_scale_up
  rw [hC]

/-- Concrete run of the amended C8: one queued request, no capacity; the first
evaluation triggers (counter 1, one pending decrement), the second is a
no-op. -/
theorem scale_up_no_double_count_witness :
    ([((0 : Nat), (0 : Nat))]).length > 0 * 4 ∧
    ([((0 : Nat), (0 : Nat))]).length ≤ (0 + 12) * 4 ∧
    ((∀ s : ScaleUpState, trigger_scale_up s =
        ⟨s.scaling_up + 1, s.pending_decrements + 1⟩) ∧
      (evaluate_scale_up 0 [(0, 0)] ⟨0, 0⟩).scaling_up = 1 ∧
      (evaluate_scale_up 0 [(0, 0)] ⟨0, 0⟩).pending_decrements = 1 ∧
      evaluate_scale_up 0 [(0, 0)] (evaluate_scale_up 0 [(0, 0)] ⟨0, 0⟩) =
        evaluate_scale_up 0 [(0, 0)] ⟨0, 0⟩) :=
  ⟨by decide, by decide, scale_up_no_double_count 0 [(0, 0)] (by decide) (by decide)⟩

/-- Once the build has been started, every further stampede participant is a
no-op. -/
theorem stampede_of_started {ο : Type} (n : Nat) :
    ∀ m : OnceMaker ο, m.is_started = true →
      OnceMaker.stampede n m = (m, 0) := by
  induction n with
  | zero => intro m hm; rfl
  | succ k ih =>
    intro m hm
    simp [OnceMaker.stampede, OnceMaker.ensure_made, hm, ih m hm]

/-- C9: any number `n ≥ 1` of requesters arriving before a `OnceMaker`
resource is built start exactly one underlying build (`is_started` is set by
the first trigger and every later trigger is a no-op), and once the single
build completes with output `o`, draining the wait queue delivers the same
cached `o` (cloned by `poll`) to every queued requester. -/
theorem once_maker_single_build {ο : Type} (o : ο) (n : Nat) (hn : 1 ≤ n)
    (q : List (Nat × Nat)) (m0 : OnceMaker ο) :
    (OnceMaker.stampede n (OnceMaker.mk false (none : Option ο))).2 = 1 ∧
    (∀ m2 : OnceMaker ο, m2.is_started = true →
      OnceMaker.ensure_made m2 = (m2, false)) ∧
    (update_go OnceMaker.poll (OnceMaker.complete m0 o) q).2.2 =
      q.map (fun e => (e.1, o)) := by
  refine ⟨?_, ?_, ?_⟩
  · obtain ⟨k, rfl⟩ := Nat.exists_eq_add_of_le' hn
    simp [OnceMaker.stampede, OnceMaker.ensure_made,
      stampede_of_started k (OnceMaker.mk true (none : Option ο)) rfl]
  · intro m2 hm2
    simp [OnceMaker.ensure_made, hm2]
  · induction q with
    | nil => rfl
    | cons e rest ih =>
      simpa [update_go, OnceMaker.poll, OnceMaker.complete] using ih

/-- Concrete run of C9: 5 requesters, one build; all five queued sinks receive
the same cached value 7. -/
theorem once_maker_single_build_witness :
    1 ≤ 5 ∧
    ((OnceMaker.stampede 5 (OnceMaker.mk false (none : Option Nat))).2 = 1 ∧
      (∀ m2 : OnceMaker Nat, m2.is_started = true →
        OnceMaker.ensure_made m2 = (m2, false)) ∧
      (update_go OnceMaker.poll
          (OnceMaker.complete (OnceMaker.mk true none) (7 : Nat))
          [(0, 0), (1, 0), (2, 0), (3, 0), (4, 0)]).2.2 =
        ([(0, 0), (1, 0), (2, 0), (3, 0), (4, 0)]).map (fun e => (e.1, 7))) :=
  ⟨by decide,
    once_maker_single_build 7 5 (by decide) [(0, 0), (1, 0), (2, 0), (3, 0), (4, 0)]
      (OnceMaker.mk true none)⟩

/-- C4 counterexample: `MultiMachine::poll` against a `Removed` store does not
panic — it returns normally with no output (`Removed => None` in `poll`),
contradicting the claim that every further request against `Removed`,
polling included, is fatal. -/
theorem multimachine_removed_poll_cx :
    mm_poll 1 MultiMachine.removed = some (none, MultiMachine.removed) := rfl

/-- C4 (amended): a `Removed` store never receives new work: `add` and
`add_inputs` against it panic; `poll` against it returns normally but always
yields `None`, so it never produces either. -/
theorem multimachine_removed_requests (n1 n2 no : Nat) (m : MachineRes) :
    mm_add n1 n2 no MultiMachine.removed m = none ∧
    mm_add_inputs n1 n2 MultiMachine.removed = none ∧
    mm_poll no MultiMachine.removed = some (none, MultiMachine.removed) :=
  ⟨rfl, rfl, rfl⟩

/-- Popping one input bundle from a machine with at least one whole load
lowers its load by exactly one; the bundle sizes are then necessarily
positive. -/
theorem pop_inputs_load {n1 n2 : Nat} {a a1 : MachineRes}
    (hpos : 0 < input_load n1 n2 a) (hp : pop_inputs n1 n2 a = some a1) :
    a1 = { a with in1 := a.in1 - n1, in2 := a.in2 - n2 } ∧
    0 < n1 ∧ 0 < n2 ∧ n1 ≤ a.in1 ∧ n2 ≤ a.in2 ∧
    input_load n1 n2 a1 = input_load n1 n2 a - 1 := by
  have hcond : n1 ≤ a.in1 ∧ n2 ≤ a.in2 := by
    by_contra hc
    simp only [pop_inputs, if_neg hc] at hp
    exact Option.noConfusion hp
  have ha1 : a1 = { a with in1 := a.in1 - n1, in2 := a.in2 - n2 } := by
    simp only [pop_inputs, if_pos hcond] at hp
    exact (Option.some.inj hp).symm
  have hd1 : 0 < a.in1 / n1 := Nat.lt_of_lt_of_le hpos (Nat.min_le_left _ _)
  have hd2 : 0 < a.in2 / n2 := Nat.lt_of_lt_of_le hpos (Nat.min_le_right _ _)
  have hn1 : 0 < n1 := by
    rcases Nat.eq_zero_or_pos n1 with h0 | h0
    · simp [h0, Nat.div_zero] at hd1
    · exact h0
  have hn2 : 0 < n2 := by
    rcases Nat.eq_zero_or_pos n2 with h0 | h0
    · simp [h0, Nat.div_zero] at hd2
    · exact h0
  have e1 : a.in1 / n1 = (a.in1 - n1) / n1 + 1 := by
    conv_lhs => rw [← Nat.sub_add_cancel hcond.1]
    rw [Nat.add_div_right _ hn1]
  have e2 : a.in2 / n2 = (a.in2 - n2) / n2 + 1 := by
    conv_lhs => rw [← Nat.sub_add_cancel hcond.2]
    rw [Nat.add_div_right _ hn2]
  refine ⟨ha1, hn1, hn2, hcond.1, hcond.2, ?_⟩
  subst ha1
  simp only [input_load]
  omega

/-- Adding one input bundle raises the load by exactly one (for positive
bundle sizes). -/
theorem add_inputs_load {n1 n2 : Nat} (hn1 : 0 < n1) (hn2 : 0 < n2)
    (b : MachineRes) :
    input_load n1 n2 (add_inputs n1 n2 b) = input_load n1 n2 b + 1 := by
  simp only [input_load, add_inputs, Nat.add_div_right _ hn1, Nat.add_div_right _ hn2]
  omega

/-- Behaviour of the rebalancing loop: it moves whole input bundles (so raw
amounts are conserved) and it stops exactly when the source machine's load
reaches the average, every moved bundle raising the target machine's load by
one. -/
theorem rebalance_one_spec (n1 n2 avg : Nat) :
    ∀ (a b : MachineRes),
      (rebalance_one n1 n2 avg a b).1.in1 + (rebalance_one n1 n2 avg a b).2.in1 =
          a.in1 + b.in1 ∧
      (rebalance_one n1 n2 avg a b).1.in2 + (rebalance_one n1 n2 avg a b).2.in2 =
          a.in2 + b.in2 ∧
      (if input_load n1 n2 a ≤ avg then rebalance_one n1 n2 avg a b = (a, b)
       else input_load n1 n2 (rebalance_one n1 n2 avg a b).1 = avg ∧
         input_load n1 n2 (rebalance_one n1 n2 avg a b).2 =
           input_load n1 n2 b + (input_load n1 n2 a - avg)) := by
  suffices H : ∀ (L : Nat) (a b : MachineRes), input_load n1 n2 a = L →
      (rebalance_one n1 n2 avg a b).1.in1 + (rebalance_one n1 n2 avg a b).2.in1 =
          a.in1 + b.in1 ∧
      (rebalance_one n1 n2 avg a b).1.in2 + (rebalance_one n1 n2 avg a b).2.in2 =
          a.in2 + b.in2 ∧
      (if input_load n1 n2 a ≤ avg then rebalance_one n1 n2 avg a b = (a, b)
       else input_load n1 n2 (rebalance_one n1 n2 avg a b).1 = avg ∧
         input_load n1 n2 (rebalance_one n1 n2 avg a b).2 =
           input_load n1 n2 b + (input_load n1 n2 a - avg)) by
    exact fun a b => H (input_load n1 n2 a) a b rfl
  intro L
  induction L using Nat.strong_induction_on with
  | _ L ih =>
    intro a b hL
    by_cases h : avg < input_load n1 n2 a
    · rw [rebalance_one, dif_pos h]
      split
      · rename_i a1 hp
        obtain ⟨ha1, hn1, hn2, hle1, hle2, hload⟩ :=
          pop_inputs_load (Nat.lt_of_le_of_lt (Nat.zero_le avg) h) hp
        have hlt : input_load n1 n2 a1 < L := by omega
        obtain ⟨hc1, hc2, hspec⟩ :=
          ih (input_load n1 n2 a1) hlt a1 (add_inputs n1 n2 b) rfl
        have hbadd := add_inputs_load hn1 hn2 b
        refine ⟨?_, ?_, ?_⟩
        · rw [hc1, ha1]
          simp only [add_inputs]
          omega
        · rw [hc2, ha1]
          simp only [add_inputs]
          omega
        · rw [if_neg (Nat.not_le_of_lt h)]
          by_cases h2 : input_load n1 n2 a1 ≤ avg
          · rw [if_pos h2] at hspec
            rw [hspec]
            constructor
            · simp only
              omega
            · simp only
              rw [hbadd]
              omega
          · rw [if_neg h2] at hspec
            obtain ⟨hr1, hr2⟩ := hspec
            refine ⟨hr1, ?_⟩
            rw [hr2, hbadd]
            omega
      · rename_i hp
        have hpop : pop_inputs n1 n2 a ≠ none := by
          have hpos : 0 < input_load n1 n2 a :=
            Nat.lt_of_le_of_lt (Nat.zero_le avg) h
          have hd1 : 0 < a.in1 / n1 := Nat.lt_of_lt_of_le hpos (Nat.min_le_left _ _)
          have hd2 : 0 < a.in2 / n2 := Nat.lt_of_lt_of_le hpos (Nat.min_le_right _ _)
          have hle1 : n1 ≤ a.in1 := by
            by_contra hc
            rw [Nat.div_eq_of_lt (Nat.lt_of_not_le hc)] at hd1
            exact Nat.lt_irrefl 0 hd1
          have hle2 : n2 ≤ a.in2 := by
            by_contra hc
            rw [Nat.div_eq_of_lt (Nat.lt_of_not_le hc)] at hd2
            exact Nat.lt_irrefl 0 hd2
          simp [pop_inputs, hle1, hle2]
        exact absurd hp hpop
    · rw [rebalance_one, dif_neg h]
      exact ⟨rfl, rfl, by rw [if_pos (Nat.le_of_not_lt h)]⟩

/-- C6: adding a fresh machine to a `Present` store holding exactly one
machine rebalances its queued input load: afterwards the two machines' loads
(queued recipe-cycles) differ by at most 1, and the raw input amounts are
exactly conserved — no input bundle is lost or duplicated. -/
theorem multimachine_add_balances (n1 n2 no : Nat) (m0 : MachineRes) :
    ∃ a b, mm_add n1 n2 no (MultiMachine.present [m0]) ⟨0, 0, 0⟩ =
        some (.present [a, b]) ∧
      input_load n1 n2 a ≤ input_load n1 n2 b + 1 ∧
      input_load n1 n2 b ≤ input_load n1 n2 a + 1 ∧
      a.in1 + b.in1 = m0.in1 ∧ a.in2 + b.in2 = m0.in2 := by
  have hfresh : input_load n1 n2 ⟨0, 0, 0⟩ = 0 := by
    simp [input_load]
  obtain ⟨hc1, hc2, hspec⟩ :=
    rebalance_one_spec n1 n2 (input_load n1 n2 m0 / 2) m0 ⟨0, 0, 0⟩
  have hmm : mm_add n1 n2 no (MultiMachine.present [m0]) ⟨0, 0, 0⟩ =
      some (.present
        [(rebalance_one n1 n2 (input_load n1 n2 m0 / 2) m0 ⟨0, 0, 0⟩).1,
         (rebalance_one n1 n2 (input_load n1 n2 m0 / 2) m0 ⟨0, 0, 0⟩).2]) := by
    simp [mm_add, rebalance_fold]
  refine ⟨_, _, hmm, ?_, ?_, by simpa using hc1, by simpa using hc2⟩
  all_goals {
    rcases le_or_lt (input_load n1 n2 m0) (input_load n1 n2 m0 / 2) with hle | hlt
    · rw [if_pos hle] at hspec
      have hz : input_load n1 n2 m0 = 0 := by omega
      rw [hspec]
      simp only
      rw [hfresh, hz]
      omega
    · rw [if_neg (Nat.not_le.mpr hlt)] at hspec
      obtain ⟨hr1, hr2⟩ := hspec
      rw [hfresh] at hr2
      rw [hr1, hr2]
      omega
  }

end Rustorio
